import Mathlib

/-!
# Verification of the t2z PCZT pipeline core

A shallow embedding of the Rust sources of the t2z repository
(`src/rust/src/types.rs`, `src/rust/src/lib.rs`) and proofs about it.

Modelling conventions:

* Machine integers (`u8`, `u16`, `u32`, `u64`, `usize`) are `Nat`; wherever the
  Rust code can overflow in release mode, the embedding applies `% 2 ^ 64`
  (or encodes the `as u16` truncating cast through the little-endian encoder).
* Byte buffers are `List Nat`; a genuine byte is `< 256`, and theorems add that
  as a hypothesis only where the value of a byte matters.
* External collaborators (the secp256k1 point check, hash160 / transparent
  address derivation, the zcash transaction builder internals, the PCZT signer
  role) are abstracted as parameters collected in the `Ext` structure; the core
  logic translated from the repository never looks inside them.
* Rust `String` error payloads are replaced by structured error inductives
  carrying the same distinguishing data (offending input index and field).
-/

namespace T2z

/-- Decidable equality on `Except`, so concrete runs can be checked with
`decide`. -/
instance {ε α : Type} [DecidableEq ε] [DecidableEq α] :
    DecidableEq (Except ε α) := fun a b =>
  match a, b with
  | .error x, .error y =>
    if h : x = y then .isTrue (by rw [h])
    else .isFalse (fun hh => by cases hh; exact h rfl)
  | .ok x, .ok y =>
    if h : x = y then .isTrue (by rw [h])
    else .isFalse (fun hh => by cases hh; exact h rfl)
  | .error _, .ok _ => .isFalse (fun hh => by cases hh)
  | .ok _, .error _ => .isFalse (fun hh => by cases hh)

/-- `2 ^ 64`, the modulus of `u64` / `usize` arithmetic. -/
def U64 : Nat := 2 ^ 64

/-- `MAX_MONEY` from `zcash_protocol`: the bound enforced by
`Zatoshis::from_u64` (21 000 000 ZEC in zatoshis). -/
def MAX_MONEY : Nat := 2100000000000000

/-! ## Little-endian byte encoding

`toLE w n` is the `w`-byte little-endian encoding of `n`; because it reduces
modulo 256 at every byte it also models Rust's truncating `as u16` casts.
`fromLE` is `u{16,32,64}::from_le_bytes` on byte lists. -/

/-- Little-endian encoding of `n` into `w` bytes (truncating, like `as uN`). -/
def toLE : Nat → Nat → List Nat
  | 0, _ => []
  | w + 1, n => n % 256 :: toLE w (n / 256)

/-- Little-endian decoding of a byte list (`uN::from_le_bytes`). -/
def fromLE (bs : List Nat) : Nat := bs.foldr (fun b acc => b + 256 * acc) 0

theorem toLE_length (w n : Nat) : (toLE w n).length = w := by
  induction w generalizing n with
  | zero => rfl
  | succ w ih => simp [toLE, ih]

theorem fromLE_toLE (w n : Nat) : fromLE (toLE w n) = n % 256 ^ w := by
  induction w generalizing n with
  | zero => simp [toLE, fromLE]; omega
  | succ w ih =>
    have h : fromLE (n % 256 :: toLE w (n / 256))
        = n % 256 + 256 * fromLE (toLE w (n / 256)) := rfl
    rw [toLE, h, ih]
    rw [pow_succ, mul_comm (256 ^ w) 256, Nat.mod_mul]

theorem fromLE_toLE_of_lt {w n : Nat} (h : n < 256 ^ w) :
    fromLE (toLE w n) = n := by
  rw [fromLE_toLE, Nat.mod_eq_of_lt h]

theorem toLE_bytes_lt (w n : Nat) : ∀ b ∈ toLE w n, b < 256 := by
  induction w generalizing n with
  | zero => intro b hb; simp [toLE] at hb
  | succ w ih =>
    intro b hb
    simp only [toLE, List.mem_cons] at hb
    rcases hb with h | h
    · subst h; exact Nat.mod_lt _ (by norm_num)
    · exact ih _ b h

/-! ## Reading a slice out of a buffer

`readBytes data off k` models the guarded slice `data[off .. off+k]` of the
Rust parser: the code first checks `off + k > data.len()` and errors, else
takes the slice. -/

/-- Guarded slice: `some` of the `k` bytes at `off` when they fit, else `none`. -/
def readBytes (data : List Nat) (off k : Nat) : Option (List Nat) :=
  if off + k ≤ data.length then some ((data.drop off).take k) else none

theorem readBytes_eq_some_iff {data : List Nat} {off k : Nat} {s : List Nat} :
    readBytes data off k = some s ↔
      off + k ≤ data.length ∧ s = (data.drop off).take k := by
  unfold readBytes
  split <;> simp_all [eq_comm]

theorem readBytes_eq_none_iff {data : List Nat} {off k : Nat} :
    readBytes data off k = none ↔ data.length < off + k := by
  unfold readBytes
  split <;> simp_all

/-- Reading a region that sits exactly between a prefix and a suffix returns
that region. -/
theorem readBytes_append (pre mid suf : List Nat) :
    readBytes (pre ++ (mid ++ suf)) pre.length mid.length = some mid := by
  unfold readBytes
  rw [if_pos (by simp [List.length_append])]
  congr 1
  rw [List.drop_left, List.take_left]

/-- A successful read is unaffected by appending bytes to the buffer. -/
theorem readBytes_append_right {data : List Nat} {off k : Nat} {s : List Nat}
    (extra : List Nat) (h : readBytes data off k = some s) :
    readBytes (data ++ extra) off k = some s := by
  rw [readBytes_eq_some_iff] at h ⊢
  obtain ⟨hle, hs⟩ := h
  refine ⟨by simp [List.length_append]; omega, ?_⟩
  rw [List.drop_append_eq_append_drop, List.take_append_eq_append_take]
  have h1 : (data.drop off).length = data.length - off := by simp
  have h2 : k - (data.drop off).length = 0 := by omega
  rw [h2]
  simp [hs]

/-! ## The transparent-input codec (`src/rust/src/types.rs`)

`TransparentInput` mirrors the Rust struct.  The `secp256k1::PublicKey` field
is represented by its 33 compressed bytes together with an abstract validity
predicate `validPk` standing for `secp256k1::PublicKey::from_slice` (the
elliptic-curve check is an external collaborator); `PublicKey::serialize`
returns exactly the compressed bytes it was parsed from, so the embedding
stores the bytes themselves. -/

/-- A transparent UTXO input to be spent (struct `TransparentInput`). -/
structure TransparentInput where
  pubkey : List Nat
  txid : List Nat
  vout : Nat
  amount : Nat
  script_pubkey : List Nat
deriving DecidableEq, Repr

/-- The field at which `parse_transparent_inputs` detected a problem; each
Rust error string names exactly one of these (plus the input index). -/
inductive Field
  | pubkey
  | txid
  | vout
  | amount
  | scriptLen
  | scriptData
deriving DecidableEq, Repr

/-- Structured form of the `String` errors of `parse_transparent_inputs`:
`headerTooShort` is the message about the 2-byte header, `truncated i f` the
messages about input `i` being truncated at field `f`, and `invalidPubkey i`
the message about input `i` carrying an invalid compressed point (the Rust
string also interpolates the secp256k1 error detail, which is external). -/
inductive ParseErr
  | headerTooShort
  | truncated (i : Nat) (f : Field)
  | invalidPubkey (i : Nat)
deriving DecidableEq, Repr

/-- One iteration of the parsing loop of `parse_transparent_inputs`: reads
the six fields of input `i` at `off`, returning the input and the next
offset.  Field order, bounds checks and the point-validity check mirror the
Rust code exactly. -/
def parseInput (validPk : List Nat → Bool) (i : Nat) (data : List Nat)
    (off : Nat) : Except ParseErr (TransparentInput × Nat) :=
  match readBytes data off 33 with
  | none => .error (.truncated i .pubkey)
  | some pk =>
    if validPk pk then
      match readBytes data (off + 33) 32 with
      | none => .error (.truncated i .txid)
      | some txid =>
        match readBytes data (off + 65) 4 with
        | none => .error (.truncated i .vout)
        | some vb =>
          match readBytes data (off + 69) 8 with
          | none => .error (.truncated i .amount)
          | some ab =>
            match readBytes data (off + 77) 2 with
            | none => .error (.truncated i .scriptLen)
            | some lb =>
              match readBytes data (off + 79) (fromLE lb) with
              | none => .error (.truncated i .scriptData)
              | some script =>
                .ok (⟨pk, txid, fromLE vb, fromLE ab, script⟩, off + 79 + fromLE lb)
    else .error (.invalidPubkey i)

/-- The `for i in 0..num_inputs` loop of `parse_transparent_inputs`:
`remaining` counts the inputs still to read, `i` is the index used in error
messages, `off` the running offset. -/
def parseLoop (validPk : List Nat → Bool) :
    Nat → Nat → List Nat → Nat → Except ParseErr (List TransparentInput)
  | 0, _, _, _ => .ok []
  | remaining + 1, i, data, off =>
    match parseInput validPk i data off with
    | .error e => .error e
    | .ok (inp, off') =>
      match parseLoop validPk remaining (i + 1) data off' with
      | .error e => .error e
      | .ok rest => .ok (inp :: rest)

/-- `parse_transparent_inputs` from `types.rs`: empty buffer is the empty
list; a 1-byte buffer is a header error; otherwise the first two bytes are
the little-endian input count and the loop runs from offset 2. -/
def parse_transparent_inputs (validPk : List Nat → Bool) (data : List Nat) :
    Except ParseErr (List TransparentInput) :=
  if data.isEmpty then .ok []
  else if data.length < 2 then .error .headerTooShort
  else parseLoop validPk (fromLE (data.take 2)) 0 data 2

/-- The per-input byte layout written by `serialize_transparent_inputs`:
pubkey, txid, vout (u32 LE), amount (u64 LE), script length (u16 LE, a
truncating `as u16` cast), script bytes. -/
def serializeInput (inp : TransparentInput) : List Nat :=
  inp.pubkey ++ (inp.txid ++ (toLE 4 inp.vout ++ (toLE 8 inp.amount ++
    (toLE 2 inp.script_pubkey.length ++ inp.script_pubkey))))

/-- Concatenation of the per-input encodings, in order. -/
def serializeInputs : List TransparentInput → List Nat
  | [] => []
  | inp :: rest => serializeInput inp ++ serializeInputs rest

/-- `serialize_transparent_inputs` from `types.rs`: the input count as u16 LE
(a truncating `as u16` cast of `inputs.len()`), then each input. -/
def serialize_transparent_inputs (inputs : List TransparentInput) : List Nat :=
  toLE 2 inputs.length ++ serializeInputs inputs

/-- An input whose fields are representable in the Rust types: a 33-byte
pubkey accepted by the point check, a 32-byte txid, `u32` vout, `u64` amount,
and a script of `u16` length. -/
abbrev WfInput (validPk : List Nat → Bool) (inp : TransparentInput) : Prop :=
  inp.pubkey.length = 33 ∧ validPk inp.pubkey = true ∧ inp.txid.length = 32 ∧
    inp.vout < 2 ^ 32 ∧ inp.amount < 2 ^ 64 ∧ inp.script_pubkey.length < 2 ^ 16

theorem serializeInput_length {inp : TransparentInput}
    (h33 : inp.pubkey.length = 33) (h32 : inp.txid.length = 32) :
    (serializeInput inp).length = 79 + inp.script_pubkey.length := by
  simp [serializeInput, toLE_length, h33, h32]
  omega

/-- `readBytes_append` with the offset and width given arithmetically. -/
theorem readBytes_append_at (pre mid suf : List Nat) (off k : Nat)
    (hoff : off = pre.length) (hk : k = mid.length) :
    readBytes (pre ++ (mid ++ suf)) off k = some mid := by
  subst hoff; subst hk; exact readBytes_append pre mid suf

/-- Parsing one input out of its own serialization (at any position in a
larger buffer) succeeds and returns exactly that input and the offset just
past it. -/
theorem parseInput_serialized (validPk : List Nat → Bool) (i : Nat)
    (pre suf : List Nat) (inp : TransparentInput)
    (wf : WfInput validPk inp) :
    parseInput validPk i (pre ++ (serializeInput inp ++ suf)) pre.length
      = .ok (inp, pre.length + 79 + inp.script_pubkey.length) := by
  obtain ⟨h33, hv, h32, hvout, hamt, hslen⟩ := wf
  obtain ⟨pk, txid, vout, amount, script⟩ := inp
  simp only at h33 hv h32 hvout hamt hslen
  have e1 : readBytes (pre ++ (serializeInput ⟨pk, txid, vout, amount, script⟩ ++ suf))
      pre.length 33 = some pk := by
    have := readBytes_append_at pre pk
      (txid ++ (toLE 4 vout ++ (toLE 8 amount ++
        (toLE 2 script.length ++ (script ++ suf)))))
      pre.length 33 rfl h33.symm
    simpa [serializeInput, List.append_assoc] using this
  have e2 : readBytes (pre ++ (serializeInput ⟨pk, txid, vout, amount, script⟩ ++ suf))
      (pre.length + 33) 32 = some txid := by
    have := readBytes_append_at (pre ++ pk) txid
      (toLE 4 vout ++ (toLE 8 amount ++
        (toLE 2 script.length ++ (script ++ suf))))
      (pre.length + 33) 32
      (by simp [h33]) h32.symm
    simpa [serializeInput, List.append_assoc] using this
  have e3 : readBytes (pre ++ (serializeInput ⟨pk, txid, vout, amount, script⟩ ++ suf))
      (pre.length + 65) 4 = some (toLE 4 vout) := by
    have := readBytes_append_at (pre ++ (pk ++ txid)) (toLE 4 vout)
      (toLE 8 amount ++ (toLE 2 script.length ++ (script ++ suf)))
      (pre.length + 65) 4
      (by simp [h33, h32]) (by simp [toLE_length])
    simpa [serializeInput, List.append_assoc] using this
  have e4 : readBytes (pre ++ (serializeInput ⟨pk, txid, vout, amount, script⟩ ++ suf))
      (pre.length + 69) 8 = some (toLE 8 amount) := by
    have := readBytes_append_at (pre ++ (pk ++ (txid ++ toLE 4 vout)))
      (toLE 8 amount)
      (toLE 2 script.length ++ (script ++ suf))
      (pre.length + 69) 8
      (by simp [h33, h32, toLE_length]) (by simp [toLE_length])
    simpa [serializeInput, List.append_assoc] using this
  have e5 : readBytes (pre ++ (serializeInput ⟨pk, txid, vout, amount, script⟩ ++ suf))
      (pre.length + 77) 2 = some (toLE 2 script.length) := by
    have := readBytes_append_at
      (pre ++ (pk ++ (txid ++ (toLE 4 vout ++ toLE 8 amount))))
      (toLE 2 script.length)
      (script ++ suf)
      (pre.length + 77) 2
      (by simp [h33, h32, toLE_length]) (by simp [toLE_length])
    simpa [serializeInput, List.append_assoc] using this
  have e6 : readBytes (pre ++ (serializeInput ⟨pk, txid, vout, amount, script⟩ ++ suf))
      (pre.length + 79) script.length = some script := by
    have := readBytes_append_at
      (pre ++ (pk ++ (txid ++ (toLE 4 vout ++
        (toLE 8 amount ++ toLE 2 script.length)))))
      script suf
      (pre.length + 79) script.length
      (by simp [h33, h32, toLE_length]) rfl
    simpa [serializeInput, List.append_assoc] using this
  have hsl : fromLE (toLE 2 script.length) = script.length :=
    fromLE_toLE_of_lt (by omega)
  have hv4 : fromLE (toLE 4 vout) = vout := fromLE_toLE_of_lt (by omega)
  have hv8 : fromLE (toLE 8 amount) = amount := fromLE_toLE_of_lt (by omega)
  simp only [parseInput, e1, hv, if_true, e2, e3, e4, e5, hsl, e6, hv4, hv8]

/-- Running the parse loop over the serialization of a list of well-formed
inputs returns exactly that list. -/
theorem parseLoop_serialized (validPk : List Nat → Bool)
    (l : List TransparentInput) (hwf : ∀ inp ∈ l, WfInput validPk inp)
    (i : Nat) (pre suf : List Nat) :
    parseLoop validPk l.length i (pre ++ (serializeInputs l ++ suf))
      pre.length = .ok l := by
  induction l generalizing i pre with
  | nil => simp [parseLoop]
  | cons x xs ih =>
    have hx := hwf x (by simp)
    have hxs : ∀ inp ∈ xs, WfInput validPk inp :=
      fun inp h => hwf inp (by simp [h])
    have hshape : pre ++ (serializeInputs (x :: xs) ++ suf)
        = pre ++ (serializeInput x ++ (serializeInputs xs ++ suf)) := by
      simp [serializeInputs, List.append_assoc]
    have e := parseInput_serialized validPk i pre (serializeInputs xs ++ suf) x hx
    have hlen : pre.length + 79 + x.script_pubkey.length
        = (pre ++ serializeInput x).length := by
      simp [List.length_append, serializeInput_length hx.1 hx.2.2.1]
      omega
    have e2' : parseLoop validPk xs.length (i + 1)
        (pre ++ (serializeInput x ++ (serializeInputs xs ++ suf)))
        (pre.length + 79 + x.script_pubkey.length) = .ok xs := by
      have := ih hxs (i + 1) (pre ++ serializeInput x)
      rw [hlen]
      simpa [List.append_assoc] using this
    show parseLoop validPk (xs.length + 1) i
        (pre ++ (serializeInputs (x :: xs) ++ suf)) pre.length = .ok (x :: xs)
    rw [hshape]
    simp only [parseLoop, e, e2']

/-- Round trip: parsing the serialization of a representable input list (at
most 65535 entries) returns exactly that list. -/
theorem parse_serialize_roundtrip (validPk : List Nat → Bool)
    (l : List TransparentInput) (hlen : l.length ≤ 65535)
    (hwf : ∀ inp ∈ l, WfInput validPk inp) :
    parse_transparent_inputs validPk (serialize_transparent_inputs l)
      = .ok l := by
  unfold parse_transparent_inputs serialize_transparent_inputs
  have hne : ((toLE 2 l.length ++ serializeInputs l).isEmpty) = false := by
    simp [toLE]
  have hlen2 : ¬ (toLE 2 l.length ++ serializeInputs l).length < 2 := by
    simp [List.length_append, toLE_length]
  rw [hne, if_neg (by simp), if_neg hlen2]
  have htake : (toLE 2 l.length ++ serializeInputs l).take 2 = toLE 2 l.length := by
    rw [List.take_append_eq_append_take,
      List.take_of_length_le (by rw [toLE_length]),
      show 2 - (toLE 2 l.length).length = 0 by rw [toLE_length],
      List.take_zero, List.append_nil]
  rw [htake, fromLE_toLE_of_lt (by omega)]
  have := parseLoop_serialized validPk l hwf 0 (toLE 2 l.length) []
  simpa [toLE_length] using this

/-! ## Error behaviour of the parser (claims C6, C10) -/

theorem readBytes_some_of_le {data : List Nat} {off k : Nat}
    (h : off + k ≤ data.length) :
    readBytes data off k = some ((data.drop off).take k) := by
  unfold readBytes
  rw [if_pos h]

theorem readBytes_none_of_lt {data : List Nat} {off k : Nat}
    (h : data.length < off + k) :
    readBytes data off k = none := by
  unfold readBytes
  rw [if_neg (by omega)]

/-- Every error of one loop iteration names the input index `i` it was
working on (and a field). -/
theorem parseInput_error_shape {validPk : List Nat → Bool}
    {i : Nat} {data : List Nat} {off : Nat} {e : ParseErr}
    (h : parseInput validPk i data off = .error e) :
    (∃ f, e = .truncated i f) ∨ e = .invalidPubkey i := by
  unfold parseInput at h
  repeat' split at h
  all_goals cases h
  all_goals simp

/-- Every error of the parse loop names an input index within the range the
loop was asked to read. -/
theorem parseLoop_error_shape {validPk : List Nat → Bool} :
    ∀ {r i : Nat} {data : List Nat} {off : Nat} {e : ParseErr},
      parseLoop validPk r i data off = .error e →
      ∃ j, i ≤ j ∧ j < i + r ∧
        ((∃ f, e = .truncated j f) ∨ e = .invalidPubkey j) := by
  intro r
  induction r with
  | zero => intro i data off e h; simp [parseLoop] at h
  | succ r ih =>
    intro i data off e h
    rw [parseLoop] at h
    cases h1 : parseInput validPk i data off with
    | error pe =>
      simp only [h1] at h
      cases h
      rcases parseInput_error_shape h1 with h2 | h2
      · exact ⟨i, le_refl i, by omega, Or.inl h2⟩
      · exact ⟨i, le_refl i, by omega, Or.inr h2⟩
    | ok res =>
      obtain ⟨inp, off2⟩ := res
      simp only [h1] at h
      cases h2 : parseLoop validPk r (i + 1) data off2 with
      | error e2 =>
        simp only [h2] at h
        cases h
        obtain ⟨j, hj1, hj2, hj3⟩ := ih h2
        exact ⟨j, by omega, by omega, hj3⟩
      | ok rest =>
        simp only [h2] at h
        cases h

/-- A successful parse loop returns exactly as many inputs as requested. -/
theorem parseLoop_ok_length {validPk : List Nat → Bool} :
    ∀ {r i : Nat} {data : List Nat} {off : Nat} {l : List TransparentInput},
      parseLoop validPk r i data off = .ok l → l.length = r := by
  intro r
  induction r with
  | zero =>
    intro i data off l h
    simp [parseLoop] at h
    simp [← h]
  | succ r ih =>
    intro i data off l h
    rw [parseLoop] at h
    cases h1 : parseInput validPk i data off with
    | error pe => simp only [h1] at h; cases h
    | ok res =>
      obtain ⟨inp, off2⟩ := res
      simp only [h1] at h
      cases h2 : parseLoop validPk r (i + 1) data off2 with
      | error e2 => simp only [h2] at h; cases h
      | ok rest =>
        simp only [h2] at h
        cases h
        simp [ih h2]

/-- A successful loop iteration is unaffected by appending bytes. -/
theorem parseInput_append_right {validPk : List Nat → Bool}
    {i : Nat} {data : List Nat} {off : Nat} {inp : TransparentInput}
    {off2 : Nat} (extra : List Nat)
    (h : parseInput validPk i data off = .ok (inp, off2)) :
    parseInput validPk i (data ++ extra) off = .ok (inp, off2) := by
  unfold parseInput at h ⊢
  cases h1 : readBytes data off 33 with
  | none => simp only [h1] at h; cases h
  | some pk =>
    simp only [h1] at h
    simp only [readBytes_append_right extra h1]
    by_cases hv : validPk pk = true
    · simp only [hv, if_true] at h ⊢
      cases h2 : readBytes data (off + 33) 32 with
      | none => simp only [h2] at h; cases h
      | some txid =>
        simp only [h2] at h
        simp only [readBytes_append_right extra h2]
        cases h3 : readBytes data (off + 65) 4 with
        | none => simp only [h3] at h; cases h
        | some vb =>
          simp only [h3] at h
          simp only [readBytes_append_right extra h3]
          cases h4 : readBytes data (off + 69) 8 with
          | none => simp only [h4] at h; cases h
          | some ab =>
            simp only [h4] at h
            simp only [readBytes_append_right extra h4]
            cases h5 : readBytes data (off + 77) 2 with
            | none => simp only [h5] at h; cases h
            | some lb =>
              simp only [h5] at h
              simp only [readBytes_append_right extra h5]
              cases h6 : readBytes data (off + 79) (fromLE lb) with
              | none => simp only [h6] at h; cases h
              | some script =>
                simp only [h6] at h
                simp only [readBytes_append_right extra h6]
                exact h
    · simp only [hv, if_false] at h
      cases h

/-- A successful parse loop is unaffected by appending bytes. -/
theorem parseLoop_append_right {validPk : List Nat → Bool} :
    ∀ {r i : Nat} {data : List Nat} {off : Nat} {l : List TransparentInput}
      (extra : List Nat),
      parseLoop validPk r i data off = .ok l →
      parseLoop validPk r i (data ++ extra) off = .ok l := by
  intro r
  induction r with
  | zero => intro i data off l extra h; exact h
  | succ r ih =>
    intro i data off l extra h
    rw [parseLoop] at h ⊢
    cases h1 : parseInput validPk i data off with
    | error pe => simp only [h1] at h; cases h
    | ok res =>
      obtain ⟨inp, off2⟩ := res
      simp only [h1] at h
      simp only [parseInput_append_right extra h1]
      cases h2 : parseLoop validPk r (i + 1) data off2 with
      | error e2 => simp only [h2] at h; cases h
      | ok rest =>
        simp only [h2] at h
        simp only [ih extra h2]
        exact h

/-- A successful parse is unaffected by trailing bytes after the declared
inputs. -/
theorem parse_append_right (validPk : List Nat → Bool)
    {data : List Nat} {l : List TransparentInput} (extra : List Nat)
    (hlen : 2 ≤ data.length)
    (h : parse_transparent_inputs validPk data = .ok l) :
    parse_transparent_inputs validPk (data ++ extra) = .ok l := by
  rcases data with _ | ⟨a, _ | ⟨b, rest⟩⟩
  · simp at hlen
  · simp at hlen
  · have h2 : parse_transparent_inputs validPk (a :: b :: rest)
        = parseLoop validPk (fromLE [a, b]) 0 (a :: b :: rest) 2 := by
      simp [parse_transparent_inputs]
    have h3 : parse_transparent_inputs validPk ((a :: b :: rest) ++ extra)
        = parseLoop validPk (fromLE [a, b]) 0 ((a :: b :: rest) ++ extra) 2 := by
      simp [parse_transparent_inputs]
    rw [h2] at h
    rw [h3]
    exact parseLoop_append_right extra h

/-- A successful parse of a buffer with a header returns exactly as many
inputs as the 2-byte count declares. -/
theorem parse_ok_length {validPk : List Nat → Bool}
    {data : List Nat} {l : List TransparentInput} (hlen : 2 ≤ data.length)
    (h : parse_transparent_inputs validPk data = .ok l) :
    l.length = fromLE (data.take 2) := by
  rcases data with _ | ⟨a, _ | ⟨b, rest⟩⟩
  · simp at hlen
  · simp at hlen
  · have h2 : parse_transparent_inputs validPk (a :: b :: rest)
        = parseLoop validPk (fromLE [a, b]) 0 (a :: b :: rest) 2 := by
      simp [parse_transparent_inputs]
    rw [h2] at h
    simpa using parseLoop_ok_length h

/-! ## Claim theorems for the input codec -/

/-- C3: for every list of `TransparentInput` values with at most 65535
entries, pubkeys that are 33 bytes accepted by the point check, machine-range
vout/amount, and scripts of at most 65535 bytes,
`parse_transparent_inputs (serialize_transparent_inputs l)` returns `Ok`
of exactly the same list, fields and order included. -/
theorem C3_serialize_parse_roundtrip (validPk : List Nat → Bool)
    (l : List TransparentInput) (hlen : l.length ≤ 65535)
    (hwf : ∀ inp ∈ l, WfInput validPk inp) :
    parse_transparent_inputs validPk (serialize_transparent_inputs l)
      = .ok l :=
  parse_serialize_roundtrip validPk l hlen hwf

/-- Witness for C3 at a concrete one-element list. -/
theorem C3_serialize_parse_roundtrip_witness :
    parse_transparent_inputs (fun _ => true)
      (serialize_transparent_inputs
        [⟨List.replicate 33 2, List.replicate 32 7, 1, 50000, [0xAB, 0xCD]⟩])
      = .ok [⟨List.replicate 33 2, List.replicate 32 7, 1, 50000, [0xAB, 0xCD]⟩] :=
  C3_serialize_parse_roundtrip (fun _ => true)
    [⟨List.replicate 33 2, List.replicate 32 7, 1, 50000, [0xAB, 0xCD]⟩]
    (by norm_num) (by decide)

/-- C6: the parser is total (every buffer access above is guarded, so the
embedding needs no partiality and the Rust code cannot index out of
bounds); the empty buffer parses to the empty list with no error; a 1-byte
buffer fails naming the header; every other error names the offending input
index (which is below the declared count) and field; and one loop iteration
fails exactly at the first field that overruns the buffer, or with the
invalid-pubkey error when the 33 pubkey bytes are present but rejected by
the secp256k1 point check. -/
theorem C6_parse_error_reporting (validPk : List Nat → Bool) :
    (parse_transparent_inputs validPk [] = .ok []) ∧
    (∀ data : List Nat, data.length = 1 →
      parse_transparent_inputs validPk data = .error .headerTooShort) ∧
    (∀ (data : List Nat) (e : ParseErr),
      parse_transparent_inputs validPk data = .error e →
      e = .headerTooShort ∨
        ∃ j, j < fromLE (data.take 2) ∧
          ((∃ f, e = .truncated j f) ∨ e = .invalidPubkey j)) ∧
    (∀ (i : Nat) (data : List Nat) (off : Nat), data.length < off + 33 →
      parseInput validPk i data off = .error (.truncated i .pubkey)) ∧
    (∀ (i : Nat) (data : List Nat) (off : Nat), off + 33 ≤ data.length →
      validPk ((data.drop off).take 33) = false →
      parseInput validPk i data off = .error (.invalidPubkey i)) ∧
    (∀ (i : Nat) (data : List Nat) (off : Nat), off + 33 ≤ data.length →
      validPk ((data.drop off).take 33) = true → data.length < off + 65 →
      parseInput validPk i data off = .error (.truncated i .txid)) ∧
    (∀ (i : Nat) (data : List Nat) (off : Nat), off + 65 ≤ data.length →
      validPk ((data.drop off).take 33) = true → data.length < off + 69 →
      parseInput validPk i data off = .error (.truncated i .vout)) ∧
    (∀ (i : Nat) (data : List Nat) (off : Nat), off + 69 ≤ data.length →
      validPk ((data.drop off).take 33) = true → data.length < off + 77 →
      parseInput validPk i data off = .error (.truncated i .amount)) ∧
    (∀ (i : Nat) (data : List Nat) (off : Nat), off + 77 ≤ data.length →
      validPk ((data.drop off).take 33) = true → data.length < off + 79 →
      parseInput validPk i data off = .error (.truncated i .scriptLen)) ∧
    (∀ (i : Nat) (data : List Nat) (off : Nat), off + 79 ≤ data.length →
      validPk ((data.drop off).take 33) = true →
      data.length < off + 79 + fromLE ((data.drop (off + 77)).take 2) →
      parseInput validPk i data off = .error (.truncated i .scriptData)) := by
  refine ⟨rfl, ?_, ?_, ?_, ?_, ?_, ?_, ?_, ?_, ?_⟩
  · intro data hlen
    rcases data with _ | ⟨a, _ | ⟨b, rest⟩⟩
    · simp at hlen
    · rfl
    · simp at hlen
  · intro data e h
    rcases data with _ | ⟨a, _ | ⟨b, rest⟩⟩
    · simp [parse_transparent_inputs] at h
    · left
      simpa [parse_transparent_inputs] using h.symm
    · have h2 : parse_transparent_inputs validPk (a :: b :: rest)
          = parseLoop validPk (fromLE [a, b]) 0 (a :: b :: rest) 2 := by
        simp [parse_transparent_inputs]
      rw [h2] at h
      right
      obtain ⟨j, _, hj2, hj3⟩ := parseLoop_error_shape h
      exact ⟨j, by simpa using hj2, hj3⟩
  · intro i data off hlen
    simp only [parseInput, readBytes_none_of_lt hlen]
  · intro i data off hle hv
    simp only [parseInput, readBytes_some_of_le hle, hv,
      Bool.false_eq_true, if_false]
  · intro i data off hle hv hlt
    simp only [parseInput, readBytes_some_of_le hle, hv, if_true,
      readBytes_none_of_lt (show data.length < off + 33 + 32 by omega)]
  · intro i data off hle hv hlt
    simp only [parseInput,
      readBytes_some_of_le (show off + 33 ≤ data.length by omega), hv, if_true,
      readBytes_some_of_le (show off + 33 + 32 ≤ data.length by omega),
      readBytes_none_of_lt (show data.length < off + 65 + 4 by omega)]
  · intro i data off hle hv hlt
    simp only [parseInput,
      readBytes_some_of_le (show off + 33 ≤ data.length by omega), hv, if_true,
      readBytes_some_of_le (show off + 33 + 32 ≤ data.length by omega),
      readBytes_some_of_le (show off + 65 + 4 ≤ data.length by omega),
      readBytes_none_of_lt (show data.length < off + 69 + 8 by omega)]
  · intro i data off hle hv hlt
    simp only [parseInput,
      readBytes_some_of_le (show off + 33 ≤ data.length by omega), hv, if_true,
      readBytes_some_of_le (show off + 33 + 32 ≤ data.length by omega),
      readBytes_some_of_le (show off + 65 + 4 ≤ data.length by omega),
      readBytes_some_of_le (show off + 69 + 8 ≤ data.length by omega),
      readBytes_none_of_lt (show data.length < off + 77 + 2 by omega)]
  · intro i data off hle hv hlt
    simp only [parseInput,
      readBytes_some_of_le (show off + 33 ≤ data.length by omega), hv, if_true,
      readBytes_some_of_le (show off + 33 + 32 ≤ data.length by omega),
      readBytes_some_of_le (show off + 65 + 4 ≤ data.length by omega),
      readBytes_some_of_le (show off + 69 + 8 ≤ data.length by omega),
      readBytes_some_of_le (show off + 77 + 2 ≤ data.length by omega),
      readBytes_none_of_lt hlt]

/-- Witness for C6 at concrete buffers: empty buffer, 1-byte buffer,
truncated pubkey, and an invalid pubkey. -/
theorem C6_parse_error_reporting_witness :
    parse_transparent_inputs (fun _ => false) [] = .ok [] ∧
    parse_transparent_inputs (fun _ => false) [7] = .error .headerTooShort ∧
    parseInput (fun _ => false) 0 [1, 0, 5] 2 = .error (.truncated 0 .pubkey) ∧
    parseInput (fun _ => false) 0 (List.replicate 35 0) 2
      = .error (.invalidPubkey 0) := by
  obtain ⟨h1, h2, _, h4, h5, _⟩ := C6_parse_error_reporting (fun _ => false)
  exact ⟨h1, h2 [7] rfl, h4 0 [1, 0, 5] 2 (by norm_num),
    h5 0 (List.replicate 35 0) 2 (by simp) rfl⟩

/-- C10: a buffer whose declared count of inputs fits in the buffer parses
successfully to exactly those inputs, ignoring trailing bytes: appending
anything after a successfully parsed buffer does not change the result, the
returned list has exactly the declared length, and consequently parsing is
not injective and `serialize` applied to a parse result can differ from the
original buffer (concretely at `[0, 0, 9]`). -/
theorem C10_parse_ignores_trailing_bytes (validPk : List Nat → Bool) :
    (∀ (data extra : List Nat) (l : List TransparentInput),
      2 ≤ data.length →
      parse_transparent_inputs validPk data = .ok l →
      parse_transparent_inputs validPk (data ++ extra) = .ok l) ∧
    (∀ (data : List Nat) (l : List TransparentInput),
      2 ≤ data.length →
      parse_transparent_inputs validPk data = .ok l →
      l.length = fromLE (data.take 2)) ∧
    (parse_transparent_inputs validPk [0, 0, 9] = .ok []) ∧
    (parse_transparent_inputs validPk [0, 0] = .ok []) ∧
    (([0, 0, 9] : List Nat) ≠ [0, 0]) ∧
    (serialize_transparent_inputs [] ≠ [0, 0, 9]) := by
  refine ⟨?_, ?_, ?_, ?_, by simp, by decide⟩
  · intro data extra l hlen h
    exact parse_append_right validPk extra hlen h
  · intro data l hlen h
    exact parse_ok_length hlen h
  · have h2 : parse_transparent_inputs validPk [0, 0, 9]
        = parseLoop validPk (fromLE [0, 0]) 0 [0, 0, 9] 2 := by
      simp [parse_transparent_inputs]
    rw [h2]
    rfl
  · rfl

/-- Witness for C10: trailing byte `9` is ignored after the valid empty
buffer `[0, 0]`. -/
theorem C10_parse_ignores_trailing_bytes_witness :
    parse_transparent_inputs (fun _ => true) ([0, 0] ++ [9]) = .ok [] ∧
    ([] : List TransparentInput).length = fromLE (([0, 0] : List Nat).take 2) := by
  obtain ⟨h1, h2, _, h4, _⟩ := C10_parse_ignores_trailing_bytes (fun _ => true)
  exact ⟨h1 [0, 0] [9] [] (by norm_num) h4, h2 [0, 0] [] (by norm_num) h4⟩

/-! ## The fee calculator (`calculate_fee` in `src/rust/src/lib.rs`)

The Rust function computes in `usize` and casts to `u64`; both are 64-bit
here, and release-mode wrapping is made explicit with `% U64` at the two
additions and the final multiplication that can overflow. -/

/-- `calculate_fee` from `lib.rs` (ZIP-317 shape): orchard outputs are padded
to an even count, transparent actions are `max(inputs, outputs)`, and the fee
is 5000 times the number of logical actions, at least two. -/
def calculate_fee (num_transparent_inputs num_transparent_outputs
    num_orchard_outputs : Nat) : Nat :=
  let logical_actions :=
    if num_orchard_outputs > 0 then
      let orchard_actions := (num_orchard_outputs + 1) % U64 / 2 * 2
      let transparent_actions :=
        max num_transparent_inputs num_transparent_outputs
      (transparent_actions + orchard_actions) % U64
    else
      max num_transparent_inputs num_transparent_outputs
  (5000 * max 2 logical_actions) % U64

/-- The fee formula exactly as the specification words it, in unbounded
integers: `shielded_actions = ceil(n/2)*2`, `logical = max(n_in, n_out)`
plus the shielded actions when any exist, `fee = 5000 * max(2, logical)`.
Used to compare `calculate_fee` against the spec (refinement). -/
def calculate_fee_spec (n_in n_out n_shielded_out : Nat) : Nat :=
  let shielded_actions := (n_shielded_out + 1) / 2 * 2
  let logical :=
    if n_shielded_out > 0 then max n_in n_out + shielded_actions
    else max n_in n_out
  5000 * max 2 logical

/-- C4 counterexample: the claim quantifies over all non-negative arguments,
but at `2 ^ 61` transparent inputs the 64-bit multiplication wraps to 0,
which differs from the spec formula `5000 * 2 ^ 61`. -/
theorem C4_calculate_fee_counterexample :
    calculate_fee (2 ^ 61) 0 0 = 0 ∧
    calculate_fee_spec (2 ^ 61) 0 0 = 5000 * 2 ^ 61 ∧
    calculate_fee (2 ^ 61) 0 0 ≠ calculate_fee_spec (2 ^ 61) 0 0 := by
  refine ⟨?_, by decide, by decide⟩
  decide

/-- C4 amended: whenever all three arguments are below `2 ^ 50` (so that no
64-bit operation overflows), `calculate_fee` equals the spec formula
`5000 * max(2, logical)`; and the three literal values of the claim hold. -/
theorem C4_calculate_fee_amended :
    (∀ a b c : Nat, a < 2 ^ 50 → b < 2 ^ 50 → c < 2 ^ 50 →
      calculate_fee a b c = calculate_fee_spec a b c) ∧
    calculate_fee 0 0 0 = 10000 ∧
    calculate_fee 1 2 0 = 10000 ∧
    calculate_fee 1 1 1 = 15000 := by
  refine ⟨?_, by decide, by decide, by decide⟩
  intro a b c ha hb hc
  have hmax : max a b < 2 ^ 50 := max_lt ha hb
  by_cases hc0 : c > 0
  · have h1 : (c + 1) % 2 ^ 64 = c + 1 := Nat.mod_eq_of_lt (by omega)
    have horch : (c + 1) / 2 * 2 ≤ c + 1 := Nat.div_mul_le_self _ _
    have h2 : (max a b + (c + 1) / 2 * 2) % 2 ^ 64
        = max a b + (c + 1) / 2 * 2 := Nat.mod_eq_of_lt (by omega)
    have h3 : max 2 (max a b + (c + 1) / 2 * 2) < 2 ^ 51 :=
      max_lt (by norm_num) (by omega)
    simp only [calculate_fee, calculate_fee_spec, U64, if_pos hc0, h1, h2]
    exact Nat.mod_eq_of_lt (by omega)
  · have h3 : max 2 (max a b) < 2 ^ 51 := max_lt (by norm_num) (by omega)
    simp only [calculate_fee, calculate_fee_spec, U64, if_neg hc0]
    exact Nat.mod_eq_of_lt (by omega)

/-- Witness for the amended C4 at concrete arguments `(3, 2, 1)`. -/
theorem C4_calculate_fee_amended_witness :
    calculate_fee 3 2 1 = calculate_fee_spec 3 2 1 ∧
    calculate_fee 3 2 1 = 25000 :=
  ⟨(C4_calculate_fee_amended).1 3 2 1 (by decide) (by decide) (by decide),
    by decide⟩

/-- C5 counterexample: `k = 2` is even and at least 2, yet
`calculate_fee(1,1,2) = 15000` while `calculate_fee(1,1,3) = 25000`: the
even-padding pairs an odd count with its successor, not an even one. -/
theorem C5_fee_padding_counterexample :
    2 % 2 = 0 ∧ 2 ≤ 2 ∧
    calculate_fee 1 1 2 = 15000 ∧ calculate_fee 1 1 3 = 25000 ∧
    calculate_fee 1 1 2 ≠ calculate_fee 1 1 3 := by
  refine ⟨rfl, le_refl 2, ?_, ?_, ?_⟩ <;> decide

/-- C5 amended: for every odd `k` (with `k + 1` still a `u64` value),
`calculate_fee(1,1,k) = calculate_fee(1,1,k+1)` — the even-padding makes an
odd shielded-output count cost the same as the next even one. -/
theorem C5_fee_padding_amended (k : Nat) (hodd : k % 2 = 1)
    (hk : k + 1 < 2 ^ 64) :
    calculate_fee 1 1 k = calculate_fee 1 1 (k + 1) := by
  have h1 : (k + 1) % 2 ^ 64 = k + 1 := Nat.mod_eq_of_lt hk
  have h2 : (k + 1 + 1) % 2 ^ 64 = k + 2 := Nat.mod_eq_of_lt (by omega)
  have h3 : (k + 1) / 2 * 2 = k + 1 := by omega
  have h4 : (k + 2) / 2 * 2 = k + 1 := by omega
  simp only [calculate_fee, U64, if_pos (show k > 0 by omega),
    if_pos (show k + 1 > 0 by omega), h1, h2, h3, h4]

/-- Witness for the amended C5 at `k = 1`:
`calculate_fee(1,1,1) = calculate_fee(1,1,2) = 15000`. -/
theorem C5_fee_padding_amended_witness :
    calculate_fee 1 1 1 = calculate_fee 1 1 2 ∧ calculate_fee 1 1 1 = 15000 :=
  ⟨C5_fee_padding_amended 1 (by decide) (by decide), by decide⟩

/-! ## Requests, addresses and the DTO

The address strings of the Rust code are decoded by the external
`zcash_address` crate; the embedding represents an address directly by the
outcome of that decoding, which is all `propose_transaction` and
`verify_before_signing` ever inspect:

* `transparent s` — the string parses as a `ZcashAddress` and converts to a
  `TransparentAddress`; `s` is the raw script bytes of that address
  (`addr.script()` without the CompactSize prefix, which is what both the
  builder and `extract_raw_script` compare);
* `shieldedOrchard r` — the string parses, is not transparent, converts to a
  unified address with an Orchard receiver whose raw bytes `r` are accepted
  by `orchard::Address::from_raw_address_bytes`;
* `shieldedNoOrchard` — the string parses but is neither transparent nor a
  unified address with a usable Orchard receiver (no receiver, or receiver
  bytes rejected);
* `unparseable` — the string does not parse as a `ZcashAddress`. -/

/-- Classification outcome of an address string by the external codec. -/
inductive Addr
  | transparent (script : List Nat)
  | shieldedOrchard (receiver : List Nat)
  | shieldedNoOrchard
  | unparseable
deriving DecidableEq, Repr

/-- A payment (struct `Payment` in `types.rs`).  `addr` is the external
classification of the `address` string; `startsWithU` is the value of the
string heuristic `Payment::is_unified()` (`address.starts_with('u')`), which
the fee-estimation step uses instead of the real classification. -/
structure Payment where
  addr : Addr
  startsWithU : Bool
  amount : Nat
  memo : Option (List Nat)
deriving DecidableEq, Repr

/-- `TransactionRequest` from `types.rs`.  The `use_mainnet` flag is read by
`propose_transaction` and written by the FFI setter
`pczt_transaction_request_set_use_mainnet`; its declaration is modelled from
the spec (`network_is_main` boolean) since the captured `types.rs` snapshot
predates the field. -/
structure TransactionRequest where
  payments : List Payment
  memo : Option (List Nat)
  target_height : Option Nat
  use_mainnet : Bool
deriving DecidableEq, Repr

/-- `TransactionRequest::total_amount`: the u64 sum of the payment amounts
(wrapping in release mode). -/
def TransactionRequest.total_amount (r : TransactionRequest) : Nat :=
  (r.payments.map (fun p => p.amount)).sum % U64

/-- The network parameter chosen by `propose_transaction`
(`MainNetwork` / `TestNetwork` from `zcash_protocol`). -/
inductive NetKind
  | main
  | test
deriving DecidableEq, Repr

/-- A transparent output of the PCZT as the verifier observes it: raw
script bytes and a value. -/
structure TOut where
  script : List Nat
  value : Nat
deriving DecidableEq, Repr

/-- The observable state of the PCZT produced by the builder: ordered
transparent inputs, ordered transparent outputs (payments in request order,
then the change output if any), the padded Orchard action count, and the
consensus parameters the builder was created with. -/
structure Dto where
  tIns : List TransparentInput
  tOuts : List TOut
  orchardActions : Nat
  network : NetKind
  targetHeight : Nat
deriving DecidableEq, Repr

/-- Errors of the external `pczt::roles::signer::Signer` role, as the core
distinguishes them when mapping to its own error types. -/
inductive SignerErr
  | invalidIndex
  | transparentSign
  | other
deriving DecidableEq, Repr

/-- The external collaborators, abstracted.  `validPk` is
`secp256k1::PublicKey::from_slice`; `fromPubkeyScript pk` is the raw script
of `TransparentAddress::from_pubkey(pk)` (hash160 plus the P2PKH template);
`pad n` is the Orchard action count the external builder produces for `n`
Orchard outputs (the bundle pads upward, and an empty bundle has no
actions); `sighashExt` and the signer fields model the `pczt` crate's
`Signer` role behind the index checks of `get_sighash` /
`append_signature`. -/
structure Ext where
  validPk : List Nat → Bool
  fromPubkeyScript : List Nat → List Nat
  pad : Nat → Nat
  sighashExt : Dto → Nat → Except SignerErr (List Nat)
  signerNewOk : Dto → Bool
  sigCompactOk : List Nat → Bool
  appendSigExt : Dto → Nat → List Nat → Except SignerErr Dto

/-! ## Proposal construction (`propose_transaction` in `lib.rs`)

The embedding follows the Rust control flow step by step; the external
builder calls (`add_transparent_input`, `add_transparent_output`,
`add_orchard_output`, `build_for_pczt`, the `Creator`/`Updater`/`IoFinalizer`
roles) are modelled by their effect on the observable DTO state — inputs in
order, outputs in insertion order, Orchard outputs padded by `Ext.pad` —
with their additional failure modes abstracted away (they can only shrink
the success set, and every claim below conditions on success). -/

/-- Structured form of `ProposalError` as `propose_transaction` produces it
(each constructor corresponds to one `format!` site in `lib.rs`). -/
inductive ProposalError
  | noPayments
  | parseFailed (e : ParseErr)
  | invalidInputData
  | invalidAddress
  | invalidAmount
  | changeNotTransparent
  | noInputsForChange
  | invalidChangeAmount
deriving DecidableEq, Repr

/-- u64 wrapping subtraction (release-mode `a - b`), for `a < 2 ^ 64`. -/
def wsub (a b : Nat) : Nat := (a + U64 - b % U64) % U64

/-- The `input.txout()` validation performed while adding inputs:
`Zatoshis::from_u64(amount)` rejects amounts above `MAX_MONEY`
(`InvalidRequest("Invalid input data: ...")`). -/
def checkInputs : List TransparentInput → Except ProposalError Unit
  | [] => .ok ()
  | inp :: rest =>
    if inp.amount > MAX_MONEY then .error .invalidInputData
    else checkInputs rest

/-- The per-payment loop of `propose_transaction_with_network`: classify the
address (unparseable strings fail `InvalidAddress` before anything else),
convert the amount (`Zatoshis::from_u64`, failing `InvalidRequest`), then
add a transparent output, add an Orchard output, or fail `InvalidAddress`
when no Orchard receiver is usable.  Returns the transparent payment outputs
in order and the number of Orchard outputs added. -/
def processPayments : List Payment → Except ProposalError (List TOut × Nat)
  | [] => .ok ([], 0)
  | p :: rest =>
    match p.addr with
    | .unparseable => .error .invalidAddress
    | a =>
      if p.amount > MAX_MONEY then .error .invalidAmount
      else
        match a with
        | .transparent s =>
          match processPayments rest with
          | .error e => .error e
          | .ok (ts, k) => .ok (⟨s, p.amount⟩ :: ts, k)
        | .shieldedOrchard _ =>
          match processPayments rest with
          | .error e => .error e
          | .ok (ts, k) => .ok (ts, k + 1)
        | .shieldedNoOrchard => .error .invalidAddress
        | .unparseable => .error .invalidAddress

/-- Closed form of the transparent payment outputs `processPayments` adds. -/
def paymentTOuts (ps : List Payment) : List TOut :=
  ps.filterMap (fun p =>
    match p.addr with
    | .transparent s => some ⟨s, p.amount⟩
    | _ => none)

/-- Closed form of the number of Orchard outputs `processPayments` adds. -/
def orchardCount (ps : List Payment) : Nat :=
  ps.countP (fun p =>
    match p.addr with
    | .shieldedOrchard _ => true
    | _ => false)

/-- A payment the per-payment loop accepts: amount within `MAX_MONEY` and an
address that classifies as transparent or as unified-with-Orchard. -/
def OkPayment (p : Payment) : Prop :=
  p.amount ≤ MAX_MONEY ∧
    (match p.addr with
     | .transparent _ => True
     | .shieldedOrchard _ => True
     | _ => False)

theorem processPayments_ok_iff (ps : List Payment)
    (out : List TOut × Nat) :
    processPayments ps = .ok out ↔
      ((∀ p ∈ ps, OkPayment p) ∧ out = (paymentTOuts ps, orchardCount ps)) := by
  induction ps generalizing out with
  | nil =>
    simp [processPayments, paymentTOuts, orchardCount, eq_comm]
  | cons p rest ih =>
    cases ha : p.addr with
    | unparseable =>
      simp [processPayments, ha, OkPayment]
    | transparent s =>
      by_cases hamt : p.amount > MAX_MONEY
      · simp only [processPayments, ha, if_pos hamt]
        constructor
        · intro h; cases h
        · rintro ⟨hall, -⟩
          have := (hall p (by simp)).1
          omega
      · simp only [processPayments, ha, if_neg hamt]
        cases hrest : processPayments rest with
        | error e =>
          simp only
          constructor
          · intro h; cases h
          · rintro ⟨hall, -⟩
            have hall2 : ∀ q ∈ rest, OkPayment q :=
              fun q hq => hall q (by simp [hq])
            have := (ih (paymentTOuts rest, orchardCount rest)).2
              ⟨hall2, rfl⟩
            rw [hrest] at this
            cases this
        | ok tk =>
          obtain ⟨ts, k⟩ := tk
          obtain ⟨hall2, htk⟩ := (ih (ts, k)).1 hrest
          obtain ⟨hts, hk⟩ := Prod.mk.injEq .. ▸ htk
          simp only
          constructor
          · intro h
            cases h
            refine ⟨?_, ?_⟩
            · intro q hq
              rcases List.mem_cons.mp hq with rfl | hq2
              · exact ⟨by omega, by simp [ha]⟩
              · exact hall2 q hq2
            · simp [paymentTOuts, orchardCount, ha, hts, hk]
          · rintro ⟨-, rfl⟩
            simp [paymentTOuts, orchardCount, ha, hts, hk]
    | shieldedOrchard r =>
      by_cases hamt : p.amount > MAX_MONEY
      · simp only [processPayments, ha, if_pos hamt]
        constructor
        · intro h; cases h
        · rintro ⟨hall, -⟩
          have := (hall p (by simp)).1
          omega
      · simp only [processPayments, ha, if_neg hamt]
        cases hrest : processPayments rest with
        | error e =>
          simp only
          constructor
          · intro h; cases h
          · rintro ⟨hall, -⟩
            have hall2 : ∀ q ∈ rest, OkPayment q :=
              fun q hq => hall q (by simp [hq])
            have := (ih (paymentTOuts rest, orchardCount rest)).2
              ⟨hall2, rfl⟩
            rw [hrest] at this
            cases this
        | ok tk =>
          obtain ⟨ts, k⟩ := tk
          obtain ⟨hall2, htk⟩ := (ih (ts, k)).1 hrest
          obtain ⟨hts, hk⟩ := Prod.mk.injEq .. ▸ htk
          simp only
          constructor
          · intro h
            cases h
            refine ⟨?_, ?_⟩
            · intro q hq
              rcases List.mem_cons.mp hq with rfl | hq2
              · exact ⟨by omega, by simp [ha]⟩
              · exact hall2 q hq2
            · simp [paymentTOuts, orchardCount, ha, hts, hk]
          · rintro ⟨-, rfl⟩
            simp [paymentTOuts, orchardCount, ha, hts, hk]
    | shieldedNoOrchard =>
      by_cases hamt : p.amount > MAX_MONEY
      · simp only [processPayments, ha, if_pos hamt]
        constructor
        · intro h; cases h
        · rintro ⟨hall, -⟩
          have := (hall p (by simp)).1
          omega
      · simp only [processPayments, ha, if_neg hamt]
        constructor
        · intro h; cases h
        · rintro ⟨hall, -⟩
          have := (hall p (by simp)).2
          simp [ha] at this

/-- `propose_transaction_with_network` from `lib.rs`: select the target
height (network-specific default when unset), parse the inputs, validate
them while adding, add one output per payment, then compute the totals, the
fee estimate (counting payments by the `starts_with('u')` heuristic and
assuming one change output), and add a change output when
`total_input > total_output + estimated_fee` — to the supplied change
address (which must classify transparent) or one derived from the first
input's pubkey. -/
def propose_transaction_with_network (E : Ext) (inputsBytes : List Nat)
    (req : TransactionRequest) (chg : Option Addr) (net : NetKind) :
    Except ProposalError Dto :=
  let defaultHeight : Nat := if req.use_mainnet then 2500000 else 3693760
  let targetHeight := req.target_height.getD defaultHeight
  match parse_transparent_inputs E.validPk inputsBytes with
  | .error e => .error (.parseFailed e)
  | .ok inputs =>
    match checkInputs inputs with
    | .error e => .error e
    | .ok _ =>
      match processPayments req.payments with
      | .error e => .error e
      | .ok (tPayOuts, nOrch) =>
        let total_input := (inputs.map (fun i => i.amount)).sum % U64
        let total_output := req.total_amount
        let num_orchard_outputs := req.payments.countP (fun p => p.startsWithU)
        let num_transparent_outputs :=
          req.payments.countP (fun p => !p.startsWithU) + 1
        let estimated_fee :=
          calculate_fee inputs.length num_transparent_outputs
            num_orchard_outputs
        if (total_output + estimated_fee) % U64 < total_input then
          let change_amount :=
            wsub (wsub total_input total_output) estimated_fee
          match chg with
          | some (.transparent s) =>
            if change_amount > MAX_MONEY then .error .invalidChangeAmount
            else .ok ⟨inputs, tPayOuts ++ [⟨s, change_amount⟩],
              E.pad nOrch, net, targetHeight⟩
          | some .unparseable => .error .invalidAddress
          | some _ => .error .changeNotTransparent
          | none =>
            match inputs with
            | [] => .error .noInputsForChange
            | i0 :: _ =>
              if change_amount > MAX_MONEY then .error .invalidChangeAmount
              else .ok ⟨inputs,
                tPayOuts ++ [⟨E.fromPubkeyScript i0.pubkey, change_amount⟩],
                E.pad nOrch, net, targetHeight⟩
        else .ok ⟨inputs, tPayOuts, E.pad nOrch, net, targetHeight⟩

/-- `propose_transaction` from `lib.rs`: reject empty payment lists, then
select mainnet or testnet parameters from the request's network flag. -/
def propose_transaction (E : Ext) (inputsBytes : List Nat)
    (req : TransactionRequest) (chg : Option Addr) :
    Except ProposalError Dto :=
  if req.payments.isEmpty then .error .noPayments
  else propose_transaction_with_network E inputsBytes req chg
    (if req.use_mainnet then .main else .test)

/-! ## Pre-sign verification (`verify_before_signing` in `lib.rs`) -/

/-- Structured `VerificationFailure` (the `OutputMismatch` message payloads
are dropped; the constructor is what the claims distinguish). -/
inductive VerificationFailure
  | changeMismatch
  | invalidFee
  | outputMismatch
deriving DecidableEq, Repr

/-- `output_matches_txout`: raw script bytes and value both equal. -/
def output_matches_txout (o t : TOut) : Bool :=
  o.script == t.script && o.value == t.value

/-- `separate_change_outputs`: partition the PCZT outputs into those
matching some expected-change entry and the rest; the number of change
matches must equal the number of expected changes. -/
def separate_change_outputs (outs expected : List TOut) :
    Except VerificationFailure (List TOut) :=
  let change_count :=
    outs.countP (fun o => expected.any (fun t => output_matches_txout o t))
  let payment_outputs :=
    outs.filter (fun o => !(expected.any (fun t => output_matches_txout o t)))
  if change_count ≠ expected.length then .error .changeMismatch
  else .ok payment_outputs

/-- The output-count stage of `verify_before_signing`: with no expected
change, at least as many outputs (transparent plus Orchard) as payments;
with expected change, exactly payments plus change. -/
def verifyCounts (dto : Dto) (req : TransactionRequest) (ec : List TOut) :
    Except VerificationFailure Unit :=
  let total := dto.tOuts.length + dto.orchardActions
  if ec.isEmpty then
    if total < req.payments.length then .error .outputMismatch else .ok ()
  else
    if total ≠ req.payments.length + ec.length then .error .outputMismatch
    else .ok ()

/-- The change-separation stage: all outputs count as payment outputs when
no expected change was declared. -/
def selectPaymentOutputs (dto : Dto) (ec : List TOut) :
    Except VerificationFailure (List TOut) :=
  if ec.isEmpty then .ok dto.tOuts else separate_change_outputs dto.tOuts ec

/-- The per-payment stage: a transparent payment needs an exact
(script, value) match among the payment outputs; a parseable non-transparent
payment only requires at least one Orchard action; an unparseable payment
address fails. -/
def verifyPayments (nOrch : Nat) (pOuts : List TOut) :
    List Payment → Except VerificationFailure Unit
  | [] => .ok ()
  | p :: rest =>
    match p.addr with
    | .unparseable => .error .outputMismatch
    | .transparent s =>
      if pOuts.any (fun o => o.script == s && o.value == p.amount) then
        verifyPayments nOrch pOuts rest
      else .error .outputMismatch
    | _ =>
      if nOrch == 0 then .error .outputMismatch
      else verifyPayments nOrch pOuts rest

/-- The fee stage: only for transactions without Orchard actions, and only
when both the transparent output total and the requested total are positive,
require `total_output_value + requested_total / 100 ≥ requested_total`. -/
def verifyFee (dto : Dto) (req : TransactionRequest) :
    Except VerificationFailure Unit :=
  if dto.orchardActions > 0 then .ok ()
  else
    let total_output_value := (dto.tOuts.map (fun o => o.value)).sum % U64
    let requested_total := req.total_amount
    if 0 < total_output_value ∧ 0 < requested_total then
      if (total_output_value + requested_total / 100) % U64 < requested_total
      then .error .invalidFee
      else .ok ()
    else .ok ()

/-- `verify_before_signing` from `lib.rs`: counts, change separation,
per-payment matching, then the fee bound. -/
def verify_before_signing (dto : Dto) (req : TransactionRequest)
    (ec : List TOut) : Except VerificationFailure Unit :=
  match verifyCounts dto req ec with
  | .error e => .error e
  | .ok _ =>
    match selectPaymentOutputs dto ec with
    | .error e => .error e
    | .ok pOuts =>
      match verifyPayments dto.orchardActions pOuts req.payments with
      | .error e => .error e
      | .ok _ => verifyFee dto req

/-! ## Sighash and signature stages (`get_sighash`, `append_signature`) -/

/-- Structured `SighashError`. -/
inductive SighashError
  | invalidInputIndex (i : Nat)
  | calculationFailed
deriving DecidableEq, Repr

/-- Structured `SignatureError`. -/
inductive SignatureError
  | invalidInputIndex (i : Nat)
  | verificationFailed
  | invalidFormat
deriving DecidableEq, Repr

/-- `get_sighash` from `lib.rs`: the index bound is checked against the
number of transparent inputs before anything external runs; the external
signer's `InvalidIndex` is mapped back to `InvalidInputIndex`, everything
else to `CalculationFailed`. -/
def get_sighash (E : Ext) (dto : Dto) (input_index : Nat) :
    Except SighashError (List Nat) :=
  if dto.tIns.length ≤ input_index then
    .error (.invalidInputIndex input_index)
  else
    match E.sighashExt dto input_index with
    | .ok h => .ok h
    | .error .invalidIndex => .error (.invalidInputIndex input_index)
    | .error _ => .error .calculationFailed

/-- `append_signature` from `lib.rs`: the index bound is checked first; then
`Signer::new` (failure → `InvalidFormat`), the compact-signature decode
(failure → `InvalidFormat`), and the external append with its error
mapping. -/
def append_signature (E : Ext) (dto : Dto) (input_index : Nat)
    (signature : List Nat) : Except SignatureError Dto :=
  if dto.tIns.length ≤ input_index then
    .error (.invalidInputIndex input_index)
  else if ! E.signerNewOk dto then .error .invalidFormat
  else if ! E.sigCompactOk signature then .error .invalidFormat
  else
    match E.appendSigExt dto input_index signature with
    | .ok d => .ok d
    | .error .invalidIndex => .error (.invalidInputIndex input_index)
    | .error .transparentSign => .error .verificationFailed
    | .error .other => .error .invalidFormat

/-- A concrete instantiation of the external collaborators, used by the
witnesses: every 33-byte check passes, derivation yields an empty script,
the Orchard bundle pads to at least two actions, and the signer role always
reports an unspecific failure. -/
def extDefault : Ext where
  validPk := fun _ => true
  fromPubkeyScript := fun _ => []
  pad := fun n => if n = 0 then 0 else max 2 n
  sighashExt := fun _ _ => .error .other
  signerNewOk := fun _ => true
  sigCompactOk := fun _ => true
  appendSigExt := fun _ _ _ => .error .other

theorem extDefault_pad_zero : extDefault.pad 0 = 0 := rfl

theorem extDefault_pad_le (n : Nat) : n ≤ extDefault.pad n := by
  by_cases h : n = 0
  · simp [extDefault, h]
  · simp [extDefault, h]

/-- C8: for every DTO and every index at least the number of transparent
inputs, `get_sighash` returns the `InvalidInputIndex` error, and
`append_signature` with that index and any 64-byte signature fails with
`InvalidInputIndex` — both checks run before any external signer code. -/
theorem C8_invalid_index_errors (E : Ext) (dto : Dto) (idx : Nat)
    (sig : List Nat) (hidx : dto.tIns.length ≤ idx) (hsig : sig.length = 64) :
    get_sighash E dto idx = .error (.invalidInputIndex idx) ∧
    append_signature E dto idx sig = .error (.invalidInputIndex idx) := by
  constructor
  · unfold get_sighash
    rw [if_pos hidx]
  · unfold append_signature
    rw [if_pos hidx]

/-- Witness for C8 at an empty DTO, index 0 and an all-zero signature. -/
theorem C8_invalid_index_errors_witness :
    get_sighash extDefault ⟨[], [], 0, .main, 0⟩ 0
      = .error (.invalidInputIndex 0) ∧
    append_signature extDefault ⟨[], [], 0, .main, 0⟩ 0 (List.replicate 64 0)
      = .error (.invalidInputIndex 0) :=
  C8_invalid_index_errors extDefault ⟨[], [], 0, .main, 0⟩ 0
    (List.replicate 64 0) (by simp) (by simp)

/-- C9: the request carries the `use_mainnet` flag, and every DTO
`propose_transaction` builds records the consensus parameters chosen from
it — mainnet when the flag is set, testnet otherwise — together with the
target height, defaulted per network (2500000 mainnet, 3693760 testnet)
when the request leaves it unset. -/
theorem C9_network_selection (E : Ext) (bytes : List Nat)
    (req : TransactionRequest) (chg : Option Addr) (dto : Dto)
    (h : propose_transaction E bytes req chg = .ok dto) :
    dto.network = (if req.use_mainnet then NetKind.main else NetKind.test) ∧
    dto.targetHeight = req.target_height.getD
      (if req.use_mainnet then 2500000 else 3693760) := by
  unfold propose_transaction at h
  split at h
  · cases h
  · simp only [propose_transaction_with_network] at h
    repeat' split at h
    all_goals cases h
    all_goals simp_all

/-- Witness for C9: a mainnet request with no explicit height produces a
mainnet DTO at the default height 2500000. -/
theorem C9_network_selection_witness :
    propose_transaction extDefault (serialize_transparent_inputs [])
      ⟨[⟨.transparent [1], false, 0, none⟩], none, none, true⟩ none
      = .ok ⟨[], [⟨[1], 0⟩], 0, .main, 2500000⟩ ∧
    (⟨[], [⟨[1], 0⟩], 0, .main, 2500000⟩ : Dto).network = .main ∧
    (⟨[], [⟨[1], 0⟩], 0, .main, 2500000⟩ : Dto).targetHeight = 2500000 := by
  refine ⟨rfl, ?_⟩
  exact C9_network_selection extDefault (serialize_transparent_inputs [])
    ⟨[⟨.transparent [1], false, 0, none⟩], none, none, true⟩ none
    ⟨[], [⟨[1], 0⟩], 0, .main, 2500000⟩ rfl

/-- Wrapping subtraction agrees with true subtraction when it cannot
underflow. -/
theorem wsub_eq_sub {a b : Nat} (hb : b ≤ a) (ha : a < U64) :
    wsub a b = a - b := by
  unfold wsub U64 at *
  omega

/-- C2: in `propose_transaction`, with `total_in` the sum of the parsed
input amounts, `total_out` the sum of the payment amounts and
`estimated_fee` the fee computed for one extra change output: when the
proposal succeeds and the 64-bit sums do not overflow, exactly one change
output is appended after the payment outputs iff
`total_in > total_out + estimated_fee`, valued
`total_in - total_out - estimated_fee`, paying the supplied change address
(which classified as transparent) or an address derived from the first
input's pubkey when none was supplied; otherwise the outputs are exactly
the payment outputs. -/
theorem C2_change_output (E : Ext) (bytes : List Nat)
    (req : TransactionRequest) (chg : Option Addr) (dto : Dto)
    (l : List TransparentInput)
    (hparse : parse_transparent_inputs E.validPk bytes = .ok l)
    (hin : (l.map (fun i => i.amount)).sum < U64)
    (hout : (req.payments.map (fun p => p.amount)).sum
        + calculate_fee l.length
            (req.payments.countP (fun p => !p.startsWithU) + 1)
            (req.payments.countP (fun p => p.startsWithU)) < U64)
    (h : propose_transaction E bytes req chg = .ok dto) :
    ((req.payments.map (fun p => p.amount)).sum
        + calculate_fee l.length
            (req.payments.countP (fun p => !p.startsWithU) + 1)
            (req.payments.countP (fun p => p.startsWithU))
        < (l.map (fun i => i.amount)).sum →
      ∃ s, dto.tOuts = paymentTOuts req.payments ++
          [⟨s, (l.map (fun i => i.amount)).sum
            - (req.payments.map (fun p => p.amount)).sum
            - calculate_fee l.length
                (req.payments.countP (fun p => !p.startsWithU) + 1)
                (req.payments.countP (fun p => p.startsWithU))⟩] ∧
        (∀ a, chg = some a → a = .transparent s) ∧
        (chg = none → ∃ i0 rest, l = i0 :: rest ∧
          s = E.fromPubkeyScript i0.pubkey)) ∧
    (¬ ((req.payments.map (fun p => p.amount)).sum
        + calculate_fee l.length
            (req.payments.countP (fun p => !p.startsWithU) + 1)
            (req.payments.countP (fun p => p.startsWithU))
        < (l.map (fun i => i.amount)).sum) →
      dto.tOuts = paymentTOuts req.payments) := by
  unfold propose_transaction at h
  by_cases hemp : req.payments.isEmpty
  · rw [if_pos hemp] at h
    cases h
  · rw [if_neg hemp] at h
    simp only [propose_transaction_with_network, hparse] at h
    cases hchk : checkInputs l with
    | error e => simp only [hchk] at h; cases h
    | ok u =>
      simp only [hchk] at h
      cases hproc : processPayments req.payments with
      | error e => simp only [hproc] at h; cases h
      | ok tk =>
        obtain ⟨ts, k⟩ := tk
        obtain ⟨hallok, htk⟩ := (processPayments_ok_iff _ _).1 hproc
        have hts : ts = paymentTOuts req.payments := by
          simpa using congrArg Prod.fst htk
        simp only [hproc] at h
        have hm1 : (l.map (fun i => i.amount)).sum % U64
            = (l.map (fun i => i.amount)).sum := Nat.mod_eq_of_lt hin
        have hm2 : req.total_amount
            = (req.payments.map (fun p => p.amount)).sum := by
          unfold TransactionRequest.total_amount
          exact Nat.mod_eq_of_lt (by omega)
        have hm3 : ((req.payments.map (fun p => p.amount)).sum
              + calculate_fee l.length
                  (req.payments.countP (fun p => !p.startsWithU) + 1)
                  (req.payments.countP (fun p => p.startsWithU))) % U64
            = (req.payments.map (fun p => p.amount)).sum
              + calculate_fee l.length
                  (req.payments.countP (fun p => !p.startsWithU) + 1)
                  (req.payments.countP (fun p => p.startsWithU)) :=
          Nat.mod_eq_of_lt hout
        rw [hm1, hm2, hm3] at h
        by_cases hcond : (req.payments.map (fun p => p.amount)).sum
            + calculate_fee l.length
                (req.payments.countP (fun p => !p.startsWithU) + 1)
                (req.payments.countP (fun p => p.startsWithU))
            < (l.map (fun i => i.amount)).sum
        · rw [if_pos hcond] at h
          have hw : wsub (wsub ((l.map (fun i => i.amount)).sum)
                req.total_amount)
              (calculate_fee l.length
                (req.payments.countP (fun p => !p.startsWithU) + 1)
                (req.payments.countP (fun p => p.startsWithU)))
              = (l.map (fun i => i.amount)).sum
                - (req.payments.map (fun p => p.amount)).sum
                - calculate_fee l.length
                    (req.payments.countP (fun p => !p.startsWithU) + 1)
                    (req.payments.countP (fun p => p.startsWithU)) := by
            rw [hm2, wsub_eq_sub (by omega) hin,
              wsub_eq_sub (by omega) (by omega)]
          rw [hm2] at hw
          refine ⟨fun _ => ?_, fun hc => absurd hcond hc⟩
          cases chg with
          | none =>
            cases l with
            | nil =>
              simp only at h
              cases h
            | cons i0 rest =>
              simp only at h
              by_cases hbig : wsub (wsub
                  ((i0 :: rest).map (fun i => i.amount)).sum
                    ((req.payments.map (fun p => p.amount)).sum))
                  (calculate_fee (i0 :: rest).length
                    (req.payments.countP (fun p => !p.startsWithU) + 1)
                    (req.payments.countP (fun p => p.startsWithU)))
                  > MAX_MONEY
              · rw [if_pos hbig] at h
                cases h
              · rw [if_neg hbig] at h
                cases h
                refine ⟨E.fromPubkeyScript i0.pubkey, ?_, ?_, ?_⟩
                · simp only [hts, hw]
                · intro a ha; cases ha
                · intro hn
                  exact ⟨i0, rest, rfl, rfl⟩
          | some a =>
            cases a with
            | transparent s =>
              simp only at h
              by_cases hbig : wsub (wsub
                  ((l.map (fun i => i.amount)).sum)
                    ((req.payments.map (fun p => p.amount)).sum))
                  (calculate_fee l.length
                    (req.payments.countP (fun p => !p.startsWithU) + 1)
                    (req.payments.countP (fun p => p.startsWithU)))
                  > MAX_MONEY
              · rw [if_pos hbig] at h
                cases h
              · rw [if_neg hbig] at h
                cases h
                refine ⟨s, ?_, ?_, ?_⟩
                · simp only [hts, hw]
                · intro a2 ha2
                  cases ha2
                  rfl
                · intro hn; cases hn
            | shieldedOrchard r => simp only at h; cases h
            | shieldedNoOrchard => simp only at h; cases h
            | unparseable => simp only at h; cases h
        · rw [if_neg hcond] at h
          cases h
          exact ⟨fun hc => absurd hc hcond, fun _ => hts⟩

/-- Concrete fixture: one spendable input of 100000000 zatoshis. -/
def inpW : TransparentInput :=
  ⟨List.replicate 33 2, List.replicate 32 7, 0, 100000000, [170]⟩

/-- Concrete fixture: one transparent payment of 100000 zatoshis. -/
def payW : Payment := ⟨.transparent [170], false, 100000, none⟩

/-- Concrete fixture: the mainnet request carrying `payW`. -/
def reqW : TransactionRequest := ⟨[payW], none, none, true⟩

/-- Concrete fixture: the DTO `propose_transaction` builds from `inpW` and
`reqW` (payment output, then a change output of 99890000). -/
def dtoW : Dto :=
  ⟨[inpW], [⟨[170], 100000⟩, ⟨[], 99890000⟩], 0, .main, 2500000⟩

/-- Witness for C2: on the concrete fixture the change branch fires and the
appended change output is valued `total_in - total_out - estimated_fee`,
which evaluates to 99890000. -/
theorem C2_change_output_witness :
    (∃ s, dtoW.tOuts = paymentTOuts reqW.payments ++
      [⟨s, (([inpW] : List TransparentInput).map (fun i => i.amount)).sum
          - (reqW.payments.map (fun p => p.amount)).sum
          - calculate_fee ([inpW] : List TransparentInput).length
              (reqW.payments.countP (fun p => !p.startsWithU) + 1)
              (reqW.payments.countP (fun p => p.startsWithU))⟩]) ∧
    (([inpW] : List TransparentInput).map (fun i => i.amount)).sum
        - (reqW.payments.map (fun p => p.amount)).sum
        - calculate_fee ([inpW] : List TransparentInput).length
            (reqW.payments.countP (fun p => !p.startsWithU) + 1)
            (reqW.payments.countP (fun p => p.startsWithU)) = 99890000 := by
  obtain ⟨h1, -⟩ := C2_change_output extDefault
    (serialize_transparent_inputs [inpW]) reqW none dtoW [inpW]
    rfl (by decide) (by decide) rfl
  obtain ⟨s, hs, -, -⟩ := h1 (by decide)
  exact ⟨⟨s, hs⟩, by decide⟩

/-! ## Verification succeeds on freshly built proposals (claim C1) -/

theorem checkInputs_ok {l : List TransparentInput} {u : Unit}
    (h : checkInputs l = .ok u) : ∀ i ∈ l, i.amount ≤ MAX_MONEY := by
  induction l with
  | nil => intro i hi; cases hi
  | cons x xs ih =>
    unfold checkInputs at h
    by_cases hx : x.amount > MAX_MONEY
    · rw [if_pos hx] at h; cases h
    · rw [if_neg hx] at h
      intro i hi
      rcases List.mem_cons.mp hi with rfl | hi2
      · omega
      · exact ih h i hi2

/-- The first two bytes of a serialization are the input count. -/
theorem serialize_take_two (l : List TransparentInput) :
    (serialize_transparent_inputs l).take 2 = toLE 2 l.length := by
  unfold serialize_transparent_inputs
  rw [List.take_append_eq_append_take,
    List.take_of_length_le (by rw [toLE_length]),
    show 2 - (toLE 2 l.length).length = 0 by rw [toLE_length],
    List.take_zero, List.append_nil]

/-- Accepted payments split exactly into transparent outputs and Orchard
outputs. -/
theorem payments_split_length {ps : List Payment}
    (hall : ∀ p ∈ ps, OkPayment p) :
    (paymentTOuts ps).length + orchardCount ps = ps.length := by
  induction ps with
  | nil => rfl
  | cons p rest ih =>
    have hp := hall p (by simp)
    have hrest : ∀ q ∈ rest, OkPayment q := fun q hq => hall q (by simp [hq])
    have ihr := ih hrest
    simp only [paymentTOuts, orchardCount] at ihr
    cases ha : p.addr with
    | transparent s =>
      simp only [paymentTOuts, orchardCount, List.filterMap_cons,
        List.countP_cons, ha, List.length_cons, Bool.false_eq_true,
        if_false, eq_self_iff_true, if_true]
      omega
    | shieldedOrchard r =>
      simp only [paymentTOuts, orchardCount, List.filterMap_cons,
        List.countP_cons, ha, List.length_cons, Bool.false_eq_true,
        if_false, eq_self_iff_true, if_true]
      omega
    | shieldedNoOrchard => exact absurd hp.2 (by simp [ha])
    | unparseable => exact absurd hp.2 (by simp [ha])

/-- Each transparent payment contributes its exact output. -/
theorem mem_paymentTOuts {ps : List Payment} {p : Payment} {s : List Nat}
    (hp : p ∈ ps) (ha : p.addr = .transparent s) :
    (⟨s, p.amount⟩ : TOut) ∈ paymentTOuts ps := by
  refine List.mem_filterMap.mpr ⟨p, hp, ?_⟩
  rw [ha]

/-- A shielded payment forces at least one Orchard output. -/
theorem orchardCount_pos {ps : List Payment} {p : Payment} {r : List Nat}
    (hp : p ∈ ps) (ha : p.addr = .shieldedOrchard r) :
    0 < orchardCount ps := by
  apply List.countP_pos_iff.mpr
  exact ⟨p, hp, by rw [ha]⟩

/-- Payment outputs never exceed `MAX_MONEY` when the payments were
accepted. -/
theorem paymentTOuts_value_le {ps : List Payment}
    (hall : ∀ p ∈ ps, OkPayment p) :
    ∀ o ∈ paymentTOuts ps, o.value ≤ MAX_MONEY := by
  intro o ho
  obtain ⟨p, hp, hpo⟩ := List.mem_filterMap.mp ho
  have := (hall p hp).1
  cases ha : p.addr with
  | transparent s =>
    rw [ha] at hpo
    cases hpo
    exact this
  | shieldedOrchard r => rw [ha] at hpo; cases hpo
  | shieldedNoOrchard => rw [ha] at hpo; cases hpo
  | unparseable => rw [ha] at hpo; cases hpo

/-- With no Orchard outputs every accepted payment is transparent, so the
payment-output values are exactly the payment amounts. -/
theorem allTransparent_sum {ps : List Payment}
    (h0 : orchardCount ps = 0) (hall : ∀ p ∈ ps, OkPayment p) :
    ((paymentTOuts ps).map (fun o => o.value)).sum
      = (ps.map (fun p => p.amount)).sum := by
  induction ps with
  | nil => rfl
  | cons p rest ih =>
    have hp := hall p (by simp)
    have hrest : ∀ q ∈ rest, OkPayment q := fun q hq => hall q (by simp [hq])
    have h0rest : orchardCount rest = 0 := by
      simp only [orchardCount, List.countP_cons] at h0 ⊢
      omega
    have ihr := ih h0rest hrest
    simp only [paymentTOuts] at ihr
    cases ha : p.addr with
    | transparent s =>
      simp only [paymentTOuts, List.filterMap_cons, ha, List.map_cons,
        List.sum_cons]
      rw [ihr]
    | shieldedOrchard r =>
      exfalso
      simp only [orchardCount, List.countP_cons, ha, eq_self_iff_true,
        if_true] at h0
      omega
    | shieldedNoOrchard => exact absurd hp.2 (by simp [ha])
    | unparseable => exact absurd hp.2 (by simp [ha])

/-- Sufficient conditions for the per-payment verification stage to pass. -/
theorem verifyPayments_ok_of {nOrch : Nat} {pOuts : List TOut}
    {ps : List Payment}
    (h : ∀ p ∈ ps,
      match p.addr with
      | .transparent s => ∃ o ∈ pOuts, o.script = s ∧ o.value = p.amount
      | .unparseable => False
      | _ => nOrch ≠ 0) :
    verifyPayments nOrch pOuts ps = .ok () := by
  induction ps with
  | nil => rfl
  | cons p rest ih =>
    have hp := h p (by simp)
    have hrest := fun q hq => h q (List.mem_cons_of_mem p hq)
    unfold verifyPayments
    cases ha : p.addr with
    | transparent s =>
      rw [ha] at hp
      obtain ⟨o, ho, hs, hv⟩ := hp
      have hany : pOuts.any
          (fun o => o.script == s && o.value == p.amount) = true := by
        rw [List.any_eq_true]
        exact ⟨o, ho, by simp [hs, hv]⟩
      simp only [ha, hany, if_true]
      exact ih hrest
    | shieldedOrchard r =>
      rw [ha] at hp
      have hz : (nOrch == 0) = false := by
        simp only [beq_eq_false_iff_ne, ne_eq]
        exact hp
      simp only [ha, hz, Bool.false_eq_true, if_false]
      exact ih hrest
    | shieldedNoOrchard =>
      rw [ha] at hp
      have hz : (nOrch == 0) = false := by
        simp only [beq_eq_false_iff_ne, ne_eq]
        exact hp
      simp only [ha, hz, Bool.false_eq_true, if_false]
      exact ih hrest
    | unparseable => rw [ha] at hp; cases hp

/-- Verification with an empty expected-change list succeeds on any DTO
whose transparent outputs are the payment outputs of an accepted request
followed by at most one bounded change output, and whose Orchard action
count dominates the number of Orchard payments.  The requested total being
within `MAX_MONEY` is the invariant the external builder's balance
arithmetic (bounded `Amount` values) enforces on every transaction it
accepts. -/
theorem verify_ok_of_built (req : TransactionRequest)
    (tIns : List TransparentInput) (net : NetKind) (ht : Nat)
    (padN : Nat) (chgList : List TOut)
    (hpadN : orchardCount req.payments ≤ padN)
    (hall : ∀ p ∈ req.payments, OkPayment p)
    (hsum : (req.payments.map (fun p => p.amount)).sum ≤ MAX_MONEY)
    (hchgLen : chgList.length ≤ 1)
    (hchgVal : ∀ o ∈ chgList, o.value ≤ MAX_MONEY) :
    verify_before_signing
      ⟨tIns, paymentTOuts req.payments ++ chgList, padN, net, ht⟩ req []
      = .ok () := by
  have hsplit := payments_split_length hall
  unfold verify_before_signing
  have hc : verifyCounts
      ⟨tIns, paymentTOuts req.payments ++ chgList, padN, net, ht⟩ req []
      = .ok () := by
    unfold verifyCounts
    simp only [List.isEmpty_nil, if_true, List.length_append]
    rw [if_neg (by omega)]
  have hsel : selectPaymentOutputs
      ⟨tIns, paymentTOuts req.payments ++ chgList, padN, net, ht⟩ []
      = .ok (paymentTOuts req.payments ++ chgList) := by
    unfold selectPaymentOutputs
    simp
  have hpay : verifyPayments padN (paymentTOuts req.payments ++ chgList)
      req.payments = .ok () := by
    apply verifyPayments_ok_of
    intro p hp
    cases ha : p.addr with
    | transparent s =>
      exact ⟨⟨s, p.amount⟩,
        List.mem_append_left _ (mem_paymentTOuts hp ha), rfl, rfl⟩
    | shieldedOrchard r =>
      have := orchardCount_pos hp ha
      omega
    | shieldedNoOrchard => exact absurd (hall p hp).2 (by simp [ha])
    | unparseable => exact absurd (hall p hp).2 (by simp [ha])
  simp only [hc, hsel, hpay]
  unfold verifyFee
  dsimp only
  by_cases hpadPos : padN > 0
  · rw [if_pos hpadPos]
  · rw [if_neg hpadPos]
    have hcnt0 : orchardCount req.payments = 0 := by omega
    have hsum := allTransparent_sum hcnt0 hall
    have hchgSum : (chgList.map (fun o => o.value)).sum ≤ MAX_MONEY := by
      rcases chgList with _ | ⟨o, rest⟩
      · simp
      · have hre : rest = [] := by
          simp only [List.length_cons] at hchgLen
          exact List.eq_nil_of_length_eq_zero (by omega)
        subst hre
        simpa using hchgVal o (by simp)
    have houts : (((paymentTOuts req.payments ++ chgList).map
        (fun o => o.value)).sum)
        = (req.payments.map (fun p => p.amount)).sum
          + (chgList.map (fun o => o.value)).sum := by
      rw [List.map_append, List.sum_append, hsum]
    rw [houts]
    have hMM : MAX_MONEY = 2100000000000000 := rfl
    have hU : U64 = 2 ^ 64 := rfl
    have hm1 : ((req.payments.map (fun p => p.amount)).sum
          + (chgList.map (fun o => o.value)).sum) % U64
        = (req.payments.map (fun p => p.amount)).sum
          + (chgList.map (fun o => o.value)).sum :=
      Nat.mod_eq_of_lt (by omega)
    have hm2 : req.total_amount
        = (req.payments.map (fun p => p.amount)).sum := by
      unfold TransactionRequest.total_amount
      exact Nat.mod_eq_of_lt (by omega)
    rw [hm1, hm2]
    split
    · rw [Nat.mod_eq_of_lt (by omega), if_neg (by omega)]
    · rfl

/-- C1: for every input list and every request with a non-empty payment
list whose addresses all classify (the success of the build enforces both),
and no supplied change address, if `propose_transaction` succeeds then
`verify_before_signing` on the resulting DTO with the same request and an
empty expected-change list succeeds.  The side conditions state two facts
about the abstracted external collaborators that hold on every build the
real code accepts: the Orchard bundle never drops actions, and the
requested total is within `MAX_MONEY` (the builder computes its value
balance in `Amount` values bounded by `MAX_MONEY` and rejects anything
larger, a check the embedding abstracts away). -/
theorem C1_build_then_verify (E : Ext) (inputs : List TransparentInput)
    (req : TransactionRequest) (dto : Dto)
    (hpad : ∀ n, n ≤ E.pad n)
    (hsum : (req.payments.map (fun p => p.amount)).sum ≤ MAX_MONEY)
    (h : propose_transaction E (serialize_transparent_inputs inputs) req none
        = .ok dto) :
    verify_before_signing dto req [] = .ok () := by
  unfold propose_transaction at h
  by_cases hemp : req.payments.isEmpty
  · rw [if_pos hemp] at h
    cases h
  · rw [if_neg hemp] at h
    simp only [propose_transaction_with_network] at h
    cases hparse : parse_transparent_inputs E.validPk
        (serialize_transparent_inputs inputs) with
    | error e => simp only [hparse] at h; cases h
    | ok l =>
      simp only [hparse] at h
      cases hchk : checkInputs l with
      | error e => simp only [hchk] at h; cases h
      | ok u =>
        simp only [hchk] at h
        cases hproc : processPayments req.payments with
        | error e => simp only [hproc] at h; cases h
        | ok tk =>
          obtain ⟨ts, k⟩ := tk
          obtain ⟨hallok, htk⟩ := (processPayments_ok_iff _ _).1 hproc
          have hts : ts = paymentTOuts req.payments := by
            simpa using congrArg Prod.fst htk
          have hk : k = orchardCount req.payments := by
            simpa using congrArg Prod.snd htk
          simp only [hproc] at h
          have hpadk : orchardCount req.payments ≤ E.pad k := by
            rw [hk]
            exact hpad _
          split at h
          · -- change branch: the supplied change address is `none`, so the
            -- script is derived from the first input
            try simp only at h
            cases l with
            | nil => cases h
            | cons i0 rest =>
              try simp only at h
              split at h
              · cases h
              · cases h
                rw [hts]
                apply verify_ok_of_built req (i0 :: rest) _ _ (E.pad k)
                  _ hpadk hallok hsum (by simp)
                intro o ho
                simp only [List.mem_singleton] at ho
                subst ho
                dsimp only
                omega
          · cases h
            rw [hts]
            have := verify_ok_of_built req l
              (if req.use_mainnet then NetKind.main else NetKind.test)
              (req.target_height.getD
                (if req.use_mainnet then 2500000 else 3693760))
              (E.pad k) [] hpadk hallok hsum (by simp) (by simp)
            simpa using this

/-- Witness for C1: the concrete one-input, one-payment build succeeds and
the resulting DTO verifies against the request with no expected change. -/
theorem C1_build_then_verify_witness :
    propose_transaction extDefault (serialize_transparent_inputs [inpW])
      reqW none = .ok dtoW ∧
    verify_before_signing dtoW reqW [] = .ok () :=
  ⟨rfl, C1_build_then_verify extDefault [inpW] reqW dtoW
    extDefault_pad_le (by decide) rfl⟩

/-! ## Characterizing the fee check of the verifier (claim C7) -/

theorem verifyCounts_error {dto : Dto} {req : TransactionRequest}
    {ec : List TOut} {e : VerificationFailure}
    (h : verifyCounts dto req ec = .error e) : e = .outputMismatch := by
  unfold verifyCounts at h
  dsimp only at h
  repeat' split at h
  all_goals first
    | (cases h; rfl)
    | cases h

theorem separate_change_error {outs expected : List TOut}
    {e : VerificationFailure}
    (h : separate_change_outputs outs expected = .error e) :
    e = .changeMismatch := by
  unfold separate_change_outputs at h
  dsimp only at h
  split at h
  · cases h; rfl
  · cases h

theorem selectPaymentOutputs_error {dto : Dto} {ec : List TOut}
    {e : VerificationFailure}
    (h : selectPaymentOutputs dto ec = .error e) : e = .changeMismatch := by
  unfold selectPaymentOutputs at h
  split at h
  · cases h
  · exact separate_change_error h

theorem verifyPayments_error {n : Nat} {po : List TOut} {e : VerificationFailure} :
    ∀ {ps : List Payment}, verifyPayments n po ps = .error e →
      e = .outputMismatch := by
  intro ps
  induction ps with
  | nil => intro h; cases h
  | cons p rest ih =>
    intro h
    unfold verifyPayments at h
    cases ha : p.addr with
    | transparent s =>
      simp only [ha] at h
      split at h
      · exact ih h
      · cases h; rfl
    | shieldedOrchard r =>
      simp only [ha] at h
      split at h
      · cases h; rfl
      · exact ih h
    | shieldedNoOrchard =>
      simp only [ha] at h
      split at h
      · cases h; rfl
      · exact ih h
    | unparseable =>
      simp only [ha] at h
      cases h; rfl

theorem verifyFee_orchard_pos {dto : Dto} {req : TransactionRequest}
    (h : 0 < dto.orchardActions) : verifyFee dto req = .ok () := by
  unfold verifyFee
  rw [if_pos h]

/-- When the three structural stages pass, verification reduces to the fee
stage. -/
theorem verify_eq_fee_of_stages {dto : Dto} {req : TransactionRequest}
    {ec pOuts : List TOut}
    (h1 : verifyCounts dto req ec = .ok ())
    (h2 : selectPaymentOutputs dto ec = .ok pOuts)
    (h3 : verifyPayments dto.orchardActions pOuts req.payments = .ok ()) :
    verify_before_signing dto req ec = verifyFee dto req := by
  unfold verify_before_signing
  simp only [h1, h2, h3]

/-- Converse of `verifyPayments_ok_of`: what each payment satisfied when the
stage passed. -/
theorem verifyPayments_mem {n : Nat} {po : List TOut} :
    ∀ {ps : List Payment}, verifyPayments n po ps = .ok () →
      ∀ p ∈ ps,
        match p.addr with
        | .transparent s =>
          po.any (fun o => o.script == s && o.value == p.amount) = true
        | .unparseable => False
        | _ => n ≠ 0 := by
  intro ps
  induction ps with
  | nil => intro _ p hp; cases hp
  | cons q rest ih =>
    intro h p hp
    unfold verifyPayments at h
    cases ha : q.addr with
    | transparent s =>
      simp only [ha] at h
      split at h
      · rcases List.mem_cons.mp hp with rfl | hp2
        · rw [ha]
          assumption
        · exact ih h p hp2
      · cases h
    | shieldedOrchard r =>
      simp only [ha] at h
      split at h
      · cases h
      · rcases List.mem_cons.mp hp with rfl | hp2
        · rw [ha]
          simpa using (by assumption : ¬ (n == 0) = true)
        · exact ih h p hp2
    | shieldedNoOrchard =>
      simp only [ha] at h
      split at h
      · cases h
      · rcases List.mem_cons.mp hp with rfl | hp2
        · rw [ha]
          simpa using (by assumption : ¬ (n == 0) = true)
        · exact ih h p hp2
    | unparseable =>
      simp only [ha] at h
      cases h

/-- Selected payment outputs are among the DTO's transparent outputs. -/
theorem selectPaymentOutputs_sub {dto : Dto} {ec pOuts : List TOut}
    (h : selectPaymentOutputs dto ec = .ok pOuts) :
    ∀ o ∈ pOuts, o ∈ dto.tOuts := by
  unfold selectPaymentOutputs at h
  split at h
  · cases h
    exact fun o ho => ho
  · unfold separate_change_outputs at h
    dsimp only at h
    split at h
    · cases h
    · cases h
      exact fun o ho => List.mem_of_mem_filter ho

/-- C7 amended: for a DTO with no Orchard actions, once the output-count,
change-separation and per-payment checks pass (and the u64 sums do not
overflow), `verify_before_signing` fails with `InvalidFee` exactly when the
requested total exceeds the total transparent output value plus 1% of the
requested total; and with Orchard actions present `InvalidFee` is never
returned.  (As literally stated the claim is false: when an earlier check
fails, verification fails with a different error even though the fee bound
is violated — see the counterexample.) -/
theorem C7_invalid_fee_amended :
    (∀ (dto : Dto) (req : TransactionRequest) (ec pOuts : List TOut),
      dto.orchardActions = 0 →
      (dto.tOuts.map (fun o => o.value)).sum < U64 →
      (req.payments.map (fun p => p.amount)).sum < U64 →
      (dto.tOuts.map (fun o => o.value)).sum
        + (req.payments.map (fun p => p.amount)).sum / 100 < U64 →
      verifyCounts dto req ec = .ok () →
      selectPaymentOutputs dto ec = .ok pOuts →
      verifyPayments dto.orchardActions pOuts req.payments = .ok () →
      (verify_before_signing dto req ec = .error .invalidFee ↔
        (dto.tOuts.map (fun o => o.value)).sum
            + (req.payments.map (fun p => p.amount)).sum / 100
          < (req.payments.map (fun p => p.amount)).sum)) ∧
    (∀ (dto : Dto) (req : TransactionRequest) (ec : List TOut),
      0 < dto.orchardActions →
      verify_before_signing dto req ec ≠ .error .invalidFee) := by
  constructor
  · intro dto req ec pOuts h0 hb1 hb2 hb3 hc hsel hpay
    rw [verify_eq_fee_of_stages hc hsel hpay]
    unfold verifyFee
    rw [if_neg (by omega)]
    dsimp only
    have hm1 : (dto.tOuts.map (fun o => o.value)).sum % U64
        = (dto.tOuts.map (fun o => o.value)).sum := Nat.mod_eq_of_lt hb1
    have hm2 : req.total_amount
        = (req.payments.map (fun p => p.amount)).sum := by
      unfold TransactionRequest.total_amount
      exact Nat.mod_eq_of_lt hb2
    rw [hm1, hm2, Nat.mod_eq_of_lt hb3]
    constructor
    · intro h
      split at h
      · split at h
        · assumption
        · cases h
      · cases h
    · intro hX
      have hR : 0 < (req.payments.map (fun p => p.amount)).sum := by omega
      have hT : 0 < (dto.tOuts.map (fun o => o.value)).sum := by
        have hex : ∃ a ∈ (req.payments.map (fun p => p.amount)), a ≠ 0 := by
          by_contra hno
          push_neg at hno
          have : (req.payments.map (fun p => p.amount)).sum = 0 :=
            List.sum_eq_zero hno
          omega
        obtain ⟨a, haMem, hane⟩ := hex
        obtain ⟨p, hp, rfl⟩ := List.mem_map.mp haMem
        have hmatch := verifyPayments_mem hpay p hp
        cases ha : p.addr with
        | transparent s =>
          rw [ha] at hmatch
          obtain ⟨o, ho, hoeq⟩ := List.any_eq_true.mp hmatch
          have hval : o.value = p.amount := by
            simpa using (Bool.and_elim_right hoeq)
          have hoT : o ∈ dto.tOuts := selectPaymentOutputs_sub hsel o ho
          have : o.value ≤ (dto.tOuts.map (fun o => o.value)).sum :=
            List.single_le_sum (fun _ _ => Nat.zero_le _) _
              (List.mem_map.mpr ⟨o, hoT, rfl⟩)
          omega
        | shieldedOrchard r => rw [ha] at hmatch; omega
        | shieldedNoOrchard => rw [ha] at hmatch; omega
        | unparseable => rw [ha] at hmatch; cases hmatch
      rw [if_pos ⟨hT, hR⟩, if_pos hX]
  · intro dto req ec hpos h
    unfold verify_before_signing at h
    cases h1 : verifyCounts dto req ec with
    | error e =>
      simp only [h1] at h
      have he := verifyCounts_error h1
      subst he
      cases h
    | ok u =>
      cases u
      simp only [h1] at h
      cases h2 : selectPaymentOutputs dto ec with
      | error e =>
        simp only [h2] at h
        have he := selectPaymentOutputs_error h2
        subst he
        cases h
      | ok pOuts =>
        simp only [h2] at h
        cases h3 : verifyPayments dto.orchardActions pOuts req.payments with
        | error e =>
          simp only [h3] at h
          have he := verifyPayments_error h3
          subst he
          cases h
        | ok u2 =>
          cases u2
          simp only [h3] at h
          rw [verifyFee_orchard_pos hpos] at h
          cases h

/-- C7 counterexample: with no Orchard actions, no outputs at all, and one
requested transparent payment of 100, the fee bound of the claim is
violated (`0 + 100/100 < 100`) yet verification fails with
`OutputMismatch` from the earlier count check, not with `InvalidFee`. -/
theorem C7_invalid_fee_counterexample :
    verify_before_signing (⟨[], [], 0, .main, 0⟩ : Dto)
        ⟨[⟨.transparent [1], false, 100, none⟩], none, none, true⟩ []
      = .error .outputMismatch ∧
    verify_before_signing (⟨[], [], 0, .main, 0⟩ : Dto)
        ⟨[⟨.transparent [1], false, 100, none⟩], none, none, true⟩ []
      ≠ .error .invalidFee ∧
    ((⟨[], [], 0, .main, 0⟩ : Dto).tOuts.map (fun o => o.value)).sum
        + (([⟨.transparent [1], false, 100, none⟩] : List Payment).map
            (fun p => p.amount)).sum / 100
      < (([⟨.transparent [1], false, 100, none⟩] : List Payment).map
          (fun p => p.amount)).sum ∧
    (⟨[], [], 0, .main, 0⟩ : Dto).orchardActions = 0 := by
  refine ⟨rfl, by decide, by decide, rfl⟩

/-- Witness for the amended C7: on a DTO whose single output exactly pays
the single requested payment the stages pass and the fee condition is an
equivalence with a false right side; and a DTO with one Orchard action
never yields `InvalidFee`. -/
theorem C7_invalid_fee_amended_witness :
    (verify_before_signing (⟨[], [⟨[1], 5⟩], 0, .main, 0⟩ : Dto)
        ⟨[⟨.transparent [1], false, 5, none⟩], none, none, true⟩ []
      = .error .invalidFee ↔
      ((⟨[], [⟨[1], 5⟩], 0, .main, 0⟩ : Dto).tOuts.map
          (fun o => o.value)).sum
        + (([⟨.transparent [1], false, 5, none⟩] : List Payment).map
            (fun p => p.amount)).sum / 100
        < (([⟨.transparent [1], false, 5, none⟩] : List Payment).map
            (fun p => p.amount)).sum) ∧
    verify_before_signing (⟨[], [], 1, .main, 0⟩ : Dto)
        ⟨[⟨.transparent [1], false, 5, none⟩], none, none, true⟩ []
      ≠ .error .invalidFee := by
  obtain ⟨h1, h2⟩ := C7_invalid_fee_amended
  exact ⟨h1 ⟨[], [⟨[1], 5⟩], 0, .main, 0⟩
      ⟨[⟨.transparent [1], false, 5, none⟩], none, none, true⟩ [] [⟨[1], 5⟩]
      rfl (by decide) (by decide) (by decide) rfl rfl rfl,
    h2 ⟨[], [], 1, .main, 0⟩
      ⟨[⟨.transparent [1], false, 5, none⟩], none, none, true⟩ []
      (by decide)⟩

end T2z
